import Mathlib

/-!
Verification of the telegraf-v1.16.3 metrics-pipeline specification against
the repository's code.  Components whose implementation files are present in
the repository snapshot (the JSON serializer, the configuration loader) are
embedded directly from their Go source; components whose implementation files
are absent from the snapshot (the Metric Buffer, the Output/Input Runner
metric shaping, the Series Grouper, the Parallel Dispatcher) are modelled
from the specification's contract, as indicated in each doc comment.
-/

namespace Telegraf

/-! ## Metric Buffer (spec §4.1) -/

/-- Modelled from the spec: the Metric Buffer of `models/buffer.go` (file not
in the snapshot).  A bounded, ordered holding area: `entries` is the queue of
buffered metrics, oldest first; `cap` is the capacity fixed at configuration
time; `dropped` is the overflow (dropped-metric) counter. -/
structure Buffer (M : Type) where
  cap : Nat
  entries : List M
  dropped : Nat
  deriving Repr, DecidableEq

namespace Buffer

/-- A freshly configured buffer of capacity `cap`. -/
def empty (M : Type) (cap : Nat) : Buffer M :=
  { cap := cap, entries := [], dropped := 0 }

/-- Modelled from the spec: admitting one metric.  "if the buffer is at
capacity, the oldest entry is evicted for each new entry admitted
(drop-oldest policy), and an overflow counter increments per dropped
metric.  No error is raised on overflow." -/
def addOne (b : Buffer M) (m : M) : Buffer M :=
  if b.entries.length < b.cap then
    { b with entries := b.entries ++ [m] }
  else
    { b with entries := b.entries.tail ++ [m], dropped := b.dropped + 1 }

/-- Modelled from the spec: `Add(metrics)` "appends in order". -/
def add (b : Buffer M) (ms : List M) : Buffer M :=
  ms.foldl addOne b

/-- Modelled from the spec: `Batch(n)` "returns up to `n` oldest entries
... in FIFO order, for a dispatch attempt".  The returned entries are held
by the dispatch attempt (and later either `accept`ed or `reject`ed), so the
buffer state keeps only the remainder. -/
def batch (b : Buffer M) (n : Nat) : List M × Buffer M :=
  (b.entries.take n, { b with entries := b.entries.drop n })

/-- Modelled from the spec: `Accept(batch)` "permanently removes the given
entries ... after a successful write".  The batched entries are already out
of `entries`, so acceptance leaves the buffer unchanged. -/
def accept (b : Buffer M) (_batch : List M) : Buffer M :=
  b

/-- Modelled from the spec: `Reject(batch)` "re-inserts the given entries at
the front of the buffer, restoring their original relative order ... If
re-insertion would exceed capacity ... the newest-arrived entries are
evicted first to make room". -/
def reject (b : Buffer M) (bat : List M) : Buffer M :=
  let combined := bat ++ b.entries
  { b with
    entries := combined.take b.cap
    dropped := b.dropped + (combined.length - b.cap) }

end Buffer

/-- An operation against one Output Runner's buffer: producer-side `add`, a
failed write attempt of batch size `n` (batch then reject), or a successful
write attempt of batch size `n` (batch then accept, batch delivered to the
sink). -/
inductive BufOp (M : Type) where
  | add (ms : List M)
  | failWrite (n : Nat)
  | succWrite (n : Nat)
  deriving Repr, DecidableEq

/-- One step of the buffer/sink system: the state is the buffer together
with the list of metrics the sink has received so far. -/
def stepOp (s : Buffer M × List M) (op : BufOp M) : Buffer M × List M :=
  match op with
  | .add ms => (s.1.add ms, s.2)
  | .failWrite n =>
      let p := s.1.batch n
      (p.2.reject p.1, s.2)
  | .succWrite n =>
      let p := s.1.batch n
      (p.2.accept p.1, s.2 ++ p.1)

/-- Run a sequence of operations from an empty buffer of capacity `cap`,
returning the final buffer and the metrics the sink received, in order. -/
def runOps (ops : List (BufOp M)) (cap : Nat) : Buffer M × List M :=
  ops.foldl stepOp (Buffer.empty M cap, [])

/-- All metrics added by a sequence of operations, in insertion order. -/
def addedMetrics (ops : List (BufOp M)) : List M :=
  ops.foldr (fun op acc => match op with | .add ms => ms ++ acc | _ => acc) []

theorem addedMetrics_cons (op : BufOp M) (ops : List (BufOp M)) :
    addedMetrics (op :: ops) =
      (match op with | .add ms => ms | _ => []) ++ addedMetrics ops := by
  cases op <;> simp [addedMetrics]

theorem Buffer.addOne_dropped_le (b : Buffer M) (m : M) :
    b.dropped ≤ (b.addOne m).dropped := by
  unfold addOne
  split <;> simp

theorem Buffer.add_dropped_le (ms : List M) (b : Buffer M) :
    b.dropped ≤ (b.add ms).dropped := by
  induction ms generalizing b with
  | nil => simp [add]
  | cons m rest ih =>
      calc b.dropped ≤ (b.addOne m).dropped := b.addOne_dropped_le m
        _ ≤ ((b.addOne m).add rest).dropped := ih (b.addOne m)
        _ = (b.add (m :: rest)).dropped := by simp [add, List.foldl]

theorem stepOp_dropped_le (s : Buffer M × List M) (op : BufOp M) :
    s.1.dropped ≤ (stepOp s op).1.dropped := by
  cases op with
  | add ms => exact Buffer.add_dropped_le ms s.1
  | failWrite n => simp [stepOp, Buffer.batch, Buffer.reject]
  | succWrite n => simp [stepOp, Buffer.batch, Buffer.accept]

theorem foldl_stepOp_dropped_le (ops : List (BufOp M)) (s : Buffer M × List M) :
    s.1.dropped ≤ (ops.foldl stepOp s).1.dropped := by
  induction ops generalizing s with
  | nil => simp
  | cons op rest ih =>
      calc s.1.dropped ≤ (stepOp s op).1.dropped := stepOp_dropped_le s op
        _ ≤ (rest.foldl stepOp (stepOp s op)).1.dropped := ih (stepOp s op)
        _ = ((op :: rest).foldl stepOp s).1.dropped := by simp [List.foldl]

/-- If an `add` did not bump the drop counter, it appended the metrics. -/
theorem Buffer.add_entries_of_no_drop (ms : List M) (b : Buffer M)
    (h : (b.add ms).dropped = b.dropped) :
    (b.add ms).entries = b.entries ++ ms := by
  induction ms generalizing b with
  | nil => simp [add]
  | cons m rest ih =>
      have hstep : b.add (m :: rest) = (b.addOne m).add rest := by
        simp [add, List.foldl]
      by_cases hlt : b.entries.length < b.cap
      · have h1 : b.addOne m = { b with entries := b.entries ++ [m] } := by
          simp [addOne, hlt]
        rw [hstep, h1] at h ⊢
        rw [ih _ h]
        simp
      · exfalso
        have h1 : (b.addOne m).dropped = b.dropped + 1 := by
          simp [addOne, hlt]
        have h2 : (b.addOne m).dropped ≤ ((b.addOne m).add rest).dropped :=
          Buffer.add_dropped_le rest (b.addOne m)
        rw [hstep] at h
        omega

/-- Core invariant: across any operation sequence in which no metric is
dropped, (delivered so far) ++ (still buffered) equals (all added so far),
in insertion order. -/
theorem foldl_stepOp_invariant (ops : List (BufOp M)) (s : Buffer M × List M)
    (h : (ops.foldl stepOp s).1.dropped = s.1.dropped) :
    (ops.foldl stepOp s).2 ++ (ops.foldl stepOp s).1.entries =
      s.2 ++ s.1.entries ++ addedMetrics ops := by
  induction ops generalizing s with
  | nil => simp [addedMetrics]
  | cons op rest ih =>
      have hle1 : s.1.dropped ≤ (stepOp s op).1.dropped := stepOp_dropped_le s op
      have hle2 : (stepOp s op).1.dropped ≤ (rest.foldl stepOp (stepOp s op)).1.dropped :=
        foldl_stepOp_dropped_le rest (stepOp s op)
      have hrun : (op :: rest).foldl stepOp s = rest.foldl stepOp (stepOp s op) := by
        simp [List.foldl]
      rw [hrun] at h ⊢
      have hmid : (stepOp s op).1.dropped = s.1.dropped := by omega
      have hrest : (rest.foldl stepOp (stepOp s op)).1.dropped = (stepOp s op).1.dropped := by
        omega
      have ihres := ih (stepOp s op) hrest
      rw [ihres, addedMetrics_cons]
      cases op with
      | add ms =>
          have hadd : (s.1.add ms).entries = s.1.entries ++ ms :=
            Buffer.add_entries_of_no_drop ms s.1 hmid
          simp [stepOp] at hmid ⊢
          rw [hadd]
          simp
      | failWrite n =>
          have hkey : (stepOp s (BufOp.failWrite n)).1.dropped
              = s.1.dropped + (s.1.entries.length - s.1.cap) := by
            simp [stepOp, Buffer.batch, Buffer.reject]
          have hlen : s.1.entries.length ≤ s.1.cap := by omega
          have htake : s.1.entries.take s.1.cap = s.1.entries :=
            List.take_of_length_le hlen
          simp [stepOp, Buffer.batch, Buffer.reject, htake]
      | succWrite n =>
          simp [stepOp, Buffer.batch, Buffer.accept]

/-- C1 supporting theorem, general form: from an empty buffer, if the run
never dropped a metric, then sink-delivered ++ still-buffered equals all
added metrics in insertion order. -/
theorem runOps_delivered_general (ops : List (BufOp M)) (cap : Nat)
    (h : (runOps ops cap).1.dropped = 0) :
    (runOps ops cap).2 ++ (runOps ops cap).1.entries = addedMetrics ops := by
  have := foldl_stepOp_invariant ops (Buffer.empty M cap ,([] : List M))
  simp [Buffer.empty] at this
  have hres := this (by simpa [runOps, Buffer.empty] using h)
  simpa [runOps, Buffer.empty] using hres

/-- Drop-oldest characterization of `add`: starting from a buffer within
capacity, adding `ms` leaves the last `cap` elements of (old ++ new) and
counts one drop per evicted element. -/
theorem Buffer.add_drop_general (ms : List M) (b : Buffer M)
    (hle : b.entries.length ≤ b.cap) (hcap : 0 < b.cap) :
    (b.add ms).entries = (b.entries ++ ms).drop (b.entries.length + ms.length - b.cap)
    ∧ (b.add ms).dropped = b.dropped + (b.entries.length + ms.length - b.cap) := by
  induction ms generalizing b with
  | nil =>
      have h0 : b.entries.length - b.cap = 0 := by omega
      simp [add, h0]
  | cons m rest ih =>
      have hstep : b.add (m :: rest) = (b.addOne m).add rest := by
        simp [add, List.foldl]
      by_cases hlt : b.entries.length < b.cap
      · have h1 : b.addOne m = ⟨b.cap, b.entries ++ [m], b.dropped⟩ := by
          simp [addOne, hlt]
        have hres := ih ⟨b.cap, b.entries ++ [m], b.dropped⟩ (by simp; omega) hcap
        have hr1 : ((⟨b.cap, b.entries ++ [m], b.dropped⟩ : Buffer M).add rest).entries
            = List.drop ((b.entries ++ [m]).length + rest.length - b.cap)
                ((b.entries ++ [m]) ++ rest) := hres.1
        have hr2 : ((⟨b.cap, b.entries ++ [m], b.dropped⟩ : Buffer M).add rest).dropped
            = b.dropped + ((b.entries ++ [m]).length + rest.length - b.cap) := hres.2
        rw [hstep, h1]
        refine ⟨?_, ?_⟩
        · rw [hr1]
          have hc : (b.entries ++ [m]).length + rest.length - b.cap
              = b.entries.length + (m :: rest).length - b.cap := by
            simp; omega
          rw [hc, List.append_assoc]
          simp
        · rw [hr2]
          simp
          omega
      · have heq : b.entries.length = b.cap := by omega
        cases hent : b.entries with
        | nil => exfalso; rw [hent] at heq; simp at heq; omega
        | cons hd tl =>
            have hlen2 : tl.length + 1 = b.cap := by
              rw [hent] at heq; simpa using heq
            have h1 : b.addOne m = ⟨b.cap, tl ++ [m], b.dropped + 1⟩ := by
              unfold addOne
              rw [if_neg hlt, hent]
              simp
            have hres := ih ⟨b.cap, tl ++ [m], b.dropped + 1⟩ (by simp; omega) hcap
            have hr1 : ((⟨b.cap, tl ++ [m], b.dropped + 1⟩ : Buffer M).add rest).entries
                = List.drop ((tl ++ [m]).length + rest.length - b.cap)
                    ((tl ++ [m]) ++ rest) := hres.1
            have hr2 : ((⟨b.cap, tl ++ [m], b.dropped + 1⟩ : Buffer M).add rest).dropped
                = (b.dropped + 1) + ((tl ++ [m]).length + rest.length - b.cap) := hres.2
            have hIc : (tl ++ [m]).length + rest.length - b.cap = rest.length := by
              simp; omega
            rw [hstep, h1]
            have hGc : (hd :: tl).length + (m :: rest).length - b.cap
                = rest.length + 1 := by
              simp; omega
            rw [hGc]
            refine ⟨?_, ?_⟩
            · rw [hr1, hIc]
              have hL : (hd :: tl) ++ m :: rest = hd :: (tl ++ ([m] ++ rest)) := by
                simp
              rw [hL, List.drop_succ_cons, List.append_assoc]
            · rw [hr2, hIc]
              omega

/-- C1: Ordering under retry.  For every sequence of `Add` calls interleaved
with failed `Write` attempts (batch then `Reject`) and successful `Write`
attempts (batch then `Accept`), if the buffer never overflowed (drop counter
stayed 0) and the final successful writes drained the buffer, the sink
received exactly the added metrics, each exactly once, in insertion order. -/
theorem ordering_under_retry (M : Type) (ops : List (BufOp M)) (cap : Nat)
    (hnodrop : (runOps ops cap).1.dropped = 0)
    (hdrained : (runOps ops cap).1.entries = []) :
    (runOps ops cap).2 = addedMetrics ops := by
  have h := runOps_delivered_general ops cap hnodrop
  rw [hdrained] at h
  simpa using h

/-- A concrete retry scenario: add five metrics, fail a write, add five
more, fail twice more, then succeed. -/
def c1ops : List (BufOp Nat) :=
  [.add [1, 2, 3, 4, 5], .failWrite 100, .add [6, 7, 8, 9, 10],
   .failWrite 100, .failWrite 100, .succWrite 100]

theorem ordering_under_retry_witness :
    (runOps c1ops 1000).2 = addedMetrics c1ops :=
  ordering_under_retry Nat c1ops 1000 (by decide) (by decide)

/-- C4: Overflow drop-oldest.  Adding `C + K` metrics to an empty buffer of
capacity `C` leaves exactly the last `C` metrics, in order, with the oldest
`K` dropped and the overflow counter equal to `K`.  `add` returns no error
on overflow: its result type carries no error component. -/
theorem overflow_drop_oldest (M : Type) (cap K : Nat) (hcap : 0 < cap)
    (ms : List M) (hlen : ms.length = cap + K) :
    ((Buffer.empty M cap).add ms).entries = ms.drop K
    ∧ ((Buffer.empty M cap).add ms).dropped = K := by
  have h := Buffer.add_drop_general ms (Buffer.empty M cap)
    (by simp [Buffer.empty]) hcap
  have hc : (Buffer.empty M cap).entries.length + ms.length - (Buffer.empty M cap).cap
      = K := by
    simp [Buffer.empty]; omega
  rw [hc] at h
  simpa [Buffer.empty] using h

theorem overflow_drop_oldest_witness :
    ((Buffer.empty Nat 3).add [1, 2, 3, 4, 5]).entries = [3, 4, 5]
    ∧ ((Buffer.empty Nat 3).add [1, 2, 3, 4, 5]).dropped = 2 := by
  have h := overflow_drop_oldest Nat 3 2 (by decide) [1, 2, 3, 4, 5] (by decide)
  simpa using h

/-! ## Parallel Dispatcher (spec §4.5, plugins/processors/reverse_dns/parallel)

The `ordered.go`/`unordered.go` implementation files are not in the snapshot;
only `parallel_test.go` and the `Parallel` interface are.  The dispatcher is
therefore modelled from the spec.  Concurrency is embedded by quantifying
over the order in which workers complete: the inputs carry sequence numbers
`0 .. N-1` in enqueue order, the per-input transform result is `f seq`, and
a run processes the completions in an arbitrary permutation `cs` of
`0 .. N-1` (any worker count and any per-input latencies realize some such
permutation, and `Stop()` waiting for all in-flight work means every
sequence number is eventually processed). -/

/-- Modelled from the spec: the Ordered dispatcher's internal state.
"tagging each input with a monotonically increasing sequence number and
buffering out-of-order completions until the next-expected sequence number
is ready to emit, then draining any contiguous run." -/
structure OrderedState (M : Type) where
  nextSeq : Nat
  pending : Nat → Option (List M)
  pendingCount : Nat
  emitted : List M

/-- The Ordered dispatcher's state before any completion arrives. -/
def initOrdered (M : Type) : OrderedState M :=
  ⟨0, fun _ => none, 0, []⟩

/-- Modelled from the spec: emit any contiguous run of buffered completions
beginning at the next expected sequence number.  The loop stops when the
next expected sequence number has no buffered completion; `fuel` bounds the
iteration count and is always supplied larger than the number of buffered
completions, so it never cuts the loop short. -/
def drainFuel : Nat → OrderedState M → OrderedState M
  | 0, s => s
  | fuel + 1, s =>
      match s.pending s.nextSeq with
      | some rs =>
          drainFuel fuel
            ⟨s.nextSeq + 1,
             fun k => if k = s.nextSeq then none else s.pending k,
             s.pendingCount - 1,
             s.emitted ++ rs⟩
      | none => s

/-- Modelled from the spec: a worker finishing the input with sequence
number `seq` buffers its transform results `rs`, then the contiguous run
starting at the next expected sequence number is drained. -/
def ordComplete (s : OrderedState M) (seq : Nat) (rs : List M) : OrderedState M :=
  drainFuel (s.pendingCount + 2)
    ⟨s.nextSeq,
     fun k => if k = seq then some rs else s.pending k,
     s.pendingCount + 1,
     s.emitted⟩

/-- A full run of the Ordered dispatcher: the workers complete the inputs
in the order listed by `cs`, the input with sequence number `c` producing
transform results `f c`. -/
def runOrdered (f : Nat → List M) (cs : List Nat) : OrderedState M :=
  cs.foldl (fun t c => ordComplete t c (f c)) (initOrdered M)

/-- Reorder-buffer invariant: `P` is the set of sequence numbers whose
transforms have completed so far. -/
def OrdInv (f : Nat → List M) (P : Finset ℕ) (s : OrderedState M) : Prop :=
  (∀ k, k < s.nextSeq → k ∈ P)
  ∧ s.nextSeq ∉ P
  ∧ (∀ k, s.pending k = if k ∈ P ∧ s.nextSeq ≤ k then some (f k) else none)
  ∧ s.pendingCount = (P.filter (fun k => s.nextSeq ≤ k)).card
  ∧ s.emitted = (List.range s.nextSeq).flatMap f

theorem drainFuel_inv (f : Nat → List M) (Q : Finset ℕ) :
    ∀ (fuel : Nat) (s : OrderedState M),
    (∀ k, k < s.nextSeq → k ∈ Q) →
    (∀ k, s.pending k = if k ∈ Q ∧ s.nextSeq ≤ k then some (f k) else none) →
    s.pendingCount = (Q.filter (fun k => s.nextSeq ≤ k)).card →
    s.emitted = (List.range s.nextSeq).flatMap f →
    s.pendingCount < fuel →
    OrdInv f Q (drainFuel fuel s) := by
  intro fuel
  induction fuel with
  | zero => intro s _ _ _ _ hcount; omega
  | succ n ih =>
      intro s hlow hchar hcount hemit hfuel
      by_cases hmem : s.nextSeq ∈ Q
      · have hpend : s.pending s.nextSeq = some (f s.nextSeq) := by
          rw [hchar]; simp [hmem]
        have hstep : drainFuel (n + 1) s = drainFuel n
            ⟨s.nextSeq + 1,
             fun k => if k = s.nextSeq then none else s.pending k,
             s.pendingCount - 1,
             s.emitted ++ f s.nextSeq⟩ := by
          rw [drainFuel, hpend]
        rw [hstep]
        have hsplit : Q.filter (fun k => s.nextSeq ≤ k)
            = insert s.nextSeq (Q.filter (fun k => s.nextSeq + 1 ≤ k)) := by
          ext k
          simp only [Finset.mem_filter, Finset.mem_insert]
          constructor
          · intro hk
            by_cases hk2 : k = s.nextSeq
            · exact Or.inl hk2
            · exact Or.inr ⟨hk.1, by omega⟩
          · intro hk
            rcases hk with hk | hk
            · exact ⟨hk ▸ hmem, by omega⟩
            · exact ⟨hk.1, by omega⟩
        have hnotin : s.nextSeq ∉ Q.filter (fun k => s.nextSeq + 1 ≤ k) := by
          simp [Finset.mem_filter]
        have hcard : s.pendingCount
            = (Q.filter (fun k => s.nextSeq + 1 ≤ k)).card + 1 := by
          rw [hcount, hsplit, Finset.card_insert_of_not_mem hnotin]
        apply ih
        · intro k hk
          simp only at hk
          by_cases hk2 : k = s.nextSeq
          · exact hk2 ▸ hmem
          · exact hlow k (by omega)
        · intro k
          simp only
          by_cases hk2 : k = s.nextSeq
          · subst hk2
            simp
          · rw [if_neg hk2, hchar k]
            by_cases hkq : k ∈ Q
            · by_cases hk3 : s.nextSeq ≤ k
              · have hk4 : s.nextSeq + 1 ≤ k := by omega
                simp [hkq, hk3, hk4]
              · have hk4 : ¬(s.nextSeq + 1 ≤ k) := by omega
                simp [hk3, hk4]
            · simp [hkq]
        · simp only
          omega
        · simp only
          rw [hemit]
          have hr : List.range (s.nextSeq + 1) = List.range s.nextSeq ++ [s.nextSeq] := by
            simp [List.range_succ]
          rw [hr, List.flatMap_append]
          simp
        · simp only
          omega
      · have hpend : s.pending s.nextSeq = none := by
          rw [hchar]; simp [hmem]
        have hstep : drainFuel (n + 1) s = s := by
          rw [drainFuel, hpend]
        rw [hstep]
        exact ⟨hlow, hmem, hchar, hcount, hemit⟩

theorem ordComplete_inv (f : Nat → List M) (P : Finset ℕ) (s : OrderedState M)
    (seq : Nat) (hinv : OrdInv f P s) (hnew : seq ∉ P) :
    OrdInv f (insert seq P) (ordComplete s seq (f seq)) := by
  obtain ⟨hlow, hnot, hchar, hcount, hemit⟩ := hinv
  have hge : s.nextSeq ≤ seq := by
    by_contra hlt
    exact hnew (hlow seq (by omega))
  apply drainFuel_inv
  · intro k hk
    exact Finset.mem_insert_of_mem (hlow k hk)
  · intro k
    simp only
    by_cases hk : k = seq
    · subst hk
      simp [hge]
    · rw [if_neg hk, hchar k]
      by_cases hkq : k ∈ P
      · simp [hkq, Finset.mem_insert, hk]
      · have : k ∉ insert seq P := by
          simp [Finset.mem_insert, hk, hkq]
        simp [hkq, this]
  · simp only
    have hsplit : (insert seq P).filter (fun k => s.nextSeq ≤ k)
        = insert seq (P.filter (fun k => s.nextSeq ≤ k)) := by
      ext k
      simp only [Finset.mem_filter, Finset.mem_insert]
      constructor
      · rintro ⟨hk1 | hk1, hk2⟩
        · exact Or.inl hk1
        · exact Or.inr ⟨hk1, hk2⟩
      · rintro (hk | ⟨hk1, hk2⟩)
        · exact ⟨Or.inl hk, hk ▸ hge⟩
        · exact ⟨Or.inr hk1, hk2⟩
    have hnotin : seq ∉ P.filter (fun k => s.nextSeq ≤ k) := by
      simp [Finset.mem_filter, hnew]
    rw [hsplit, Finset.card_insert_of_not_mem hnotin, hcount]
  · exact hemit
  · simp only
    omega

theorem runOrdered_fold (f : Nat → List M) (cs : List Nat) :
    ∀ (P : Finset ℕ) (s : OrderedState M),
    cs.Nodup → (∀ c ∈ cs, c ∉ P) → OrdInv f P s →
    OrdInv f (P ∪ cs.toFinset) (cs.foldl (fun t c => ordComplete t c (f c)) s) := by
  induction cs with
  | nil =>
      intro P s _ _ hinv
      simpa using hinv
  | cons c rest ih =>
      intro P s hnodup hdisj hinv
      have h1 := ordComplete_inv f P s c hinv (hdisj c (by simp))
      have hnd : rest.Nodup := (List.nodup_cons.mp hnodup).2
      have hcne : c ∉ rest := (List.nodup_cons.mp hnodup).1
      have hdisj2 : ∀ d ∈ rest, d ∉ insert c P := by
        intro d hd
        simp only [Finset.mem_insert]
        rintro (rfl | hdp)
        · exact hcne hd
        · exact hdisj d (by simp [hd]) hdp
      have h2 := ih (insert c P) _ hnd hdisj2 h1
      have hset : insert c P ∪ rest.toFinset = P ∪ (c :: rest).toFinset := by
        ext k
        simp only [Finset.mem_union, Finset.mem_insert, List.toFinset_cons,
          List.mem_toFinset]
        tauto
      rw [hset] at h2
      simpa using h2

/-- C2: Ordered Parallel Dispatcher.  For inputs carrying sequence numbers
`0 .. N-1` in enqueue order, whatever order `cs` the concurrent workers
complete in (any worker count, any latencies), the emitted output is the
concatenation of the per-input transform results in exactly the enqueue
order. -/
theorem ordered_dispatcher (M : Type) (f : Nat → List M) (N : Nat)
    (cs : List Nat) (hperm : cs.Perm (List.range N)) :
    (runOrdered f cs).emitted = (List.range N).flatMap f := by
  have hnodup : cs.Nodup := hperm.nodup_iff.mpr (List.nodup_range N)
  have hinv0 : OrdInv f ∅ (initOrdered M) := by
    refine ⟨by simp [initOrdered], by simp, by simp [initOrdered],
      by simp [initOrdered], by simp [initOrdered]⟩
  have h := runOrdered_fold f cs ∅ (initOrdered M) hnodup (by simp) hinv0
  have hset : cs.toFinset = Finset.range N := by
    rw [List.toFinset_eq_of_perm cs (List.range N) hperm]
    ext k; simp
  have hrun : runOrdered f cs
      = cs.foldl (fun t c => ordComplete t c (f c)) (initOrdered M) := rfl
  rw [← hrun] at h
  simp only [hset, Finset.empty_union] at h
  obtain ⟨hlow, hnot, _, _, hemit⟩ := h
  have hle : (runOrdered f cs).nextSeq ≤ N := by
    by_contra hgt
    have hmem := hlow N (by omega)
    simp [Finset.mem_range] at hmem
  have hnlt : ¬ (runOrdered f cs).nextSeq < N := by
    intro hlt
    exact hnot (Finset.mem_range.mpr hlt)
  have hN : (runOrdered f cs).nextSeq = N := by omega
  rw [hemit, hN]

theorem ordered_dispatcher_witness :
    (runOrdered (fun i => [i]) [2, 0, 1]).emitted
      = (List.range 3).flatMap (fun i => [i]) :=
  ordered_dispatcher Nat (fun i => [i]) 3 [2, 0, 1] (by decide)

/-- Modelled from the spec: the Unordered dispatcher emits each transform's
results as soon as the transform completes, in completion order. -/
def runUnordered (f : Nat → List M) (cs : List Nat) : List M :=
  cs.foldl (fun emitted c => emitted ++ f c) []

theorem runUnordered_eq_flatMap (f : Nat → List M) (cs : List Nat) :
    runUnordered f cs = cs.flatMap f := by
  have haux : ∀ (ds : List Nat) (acc : List M),
      ds.foldl (fun emitted c => emitted ++ f c) acc = acc ++ ds.flatMap f := by
    intro ds
    induction ds with
    | nil => intro acc; simp
    | cons d rest ih =>
        intro acc
        simp only [List.foldl, List.flatMap_cons]
        rw [ih (acc ++ f d), List.append_assoc]
  simpa using haux cs []

/-- C3: Unordered Parallel Dispatcher and Stop completeness.  Whatever order
`cs` the workers complete in, once `Stop()` has waited for every enqueued
input's transform (the run processes all of `0 .. N-1`), the delivered
metrics are a permutation of all the transform results — none lost, none
duplicated — and when each transform yields exactly one metric the
delivered count equals `N`. -/
theorem unordered_dispatcher (M : Type) (f : Nat → List M) (N : Nat)
    (cs : List Nat) (hperm : cs.Perm (List.range N)) :
    (runUnordered f cs).Perm ((List.range N).flatMap f)
    ∧ ((∀ i, (f i).length = 1) → (runUnordered f cs).length = N) := by
  have hmain : (runUnordered f cs).Perm ((List.range N).flatMap f) := by
    rw [runUnordered_eq_flatMap]
    exact List.Perm.flatMap_right f hperm
  refine ⟨hmain, ?_⟩
  intro hone
  rw [hmain.length_eq]
  rw [List.length_flatMap, show List.length ∘ f = fun _ => 1 from funext hone]
  simp

theorem unordered_dispatcher_witness :
    (runUnordered (fun i => [i + 10]) [1, 2, 0]).Perm
      ((List.range 3).flatMap (fun i => [i + 10]))
    ∧ (runUnordered (fun i => [i + 10]) [1, 2, 0]).length = 3 := by
  have h := unordered_dispatcher Nat (fun i => [i + 10]) 3 [1, 2, 0] (by decide)
  exact ⟨h.1, h.2 (fun i => rfl)⟩

/-! ## Series Grouper (spec §4.4; used by plugins/aggregators/merge/merge.go)

`metric/series_grouper.go` is not in the snapshot; the grouper is modelled
from the spec's contract.  Values are kept generic in `V`. -/

/-- The key of a Series Grouper entry: measurement name, tag set and
timestamp. -/
structure SeriesKey where
  name : String
  tags : List (String × String)
  time : Int
  deriving Repr, DecidableEq

/-- Modelled from the spec: setting a field in an accumulated field map,
"last-write-wins on duplicate field keys". -/
def setField (fs : List (String × V)) (k : String) (v : V) : List (String × V) :=
  if fs.any (fun p => p.1 == k) then
    fs.map (fun p => if p.1 == k then (k, v) else p)
  else
    fs ++ [(k, v)]

/-- A metric as produced by the grouper: one per series key, carrying the
accumulated fields. -/
structure GMetric (V : Type) where
  name : String
  tags : List (String × String)
  time : Int
  fields : List (String × V)
  deriving Repr, DecidableEq

/-- Modelled from the spec: the Series Grouper's state, entries in
first-seen order. -/
structure SeriesGrouper (V : Type) where
  series : List (SeriesKey × List (String × V))
  deriving Repr, DecidableEq

/-- A fresh grouper (`NewSeriesGrouper`). -/
def SeriesGrouper.empty (V : Type) : SeriesGrouper V := ⟨[]⟩

/-- Modelled from the spec: `Add(measurement, tags, timestamp, fieldKey,
fieldValue)` "locates or creates the entry for the series key
(measurement+tags+timestamp), sets `fieldKey`". -/
def SeriesGrouper.addField (g : SeriesGrouper V) (name : String)
    (tags : List (String × String)) (time : Int) (k : String) (v : V) :
    SeriesGrouper V :=
  let key : SeriesKey := ⟨name, tags, time⟩
  if g.series.any (fun p => p.1 == key) then
    ⟨g.series.map (fun p => if p.1 == key then (p.1, setField p.2 k v) else p)⟩
  else
    ⟨g.series ++ [(key, [(k, v)])]⟩

/-- Modelled from the spec: `Metrics()` "produces the accumulated entries
as one Metric per series key, in first-seen order". -/
def SeriesGrouper.metrics (g : SeriesGrouper V) : List (GMetric V) :=
  g.series.map (fun p => ⟨p.1.name, p.1.tags, p.1.time, p.2⟩)

/-- C5: Series Grouper merge.  Two `Add` calls with the same measurement
name, tag set and timestamp and distinct field keys produce exactly one
metric with that name/tags/timestamp whose field map is the union of the
added fields; and on a duplicate field key within the same series key the
last-written value wins. -/
theorem series_grouper_merge (V : Type) (name : String)
    (tags : List (String × String)) (t : Int) (f1 f2 : String) (v1 v2 w : V)
    (hne : f1 ≠ f2) :
    (((SeriesGrouper.empty V).addField name tags t f1 v1).addField
        name tags t f2 v2).metrics
      = [⟨name, tags, t, [(f1, v1), (f2, v2)]⟩]
    ∧ (((SeriesGrouper.empty V).addField name tags t f1 v1).addField
        name tags t f1 w).metrics
      = [⟨name, tags, t, [(f1, w)]⟩] := by
  constructor
  · simp [SeriesGrouper.empty, SeriesGrouper.addField, SeriesGrouper.metrics,
      setField, hne, Ne.symm hne]
  · simp [SeriesGrouper.empty, SeriesGrouper.addField, SeriesGrouper.metrics,
      setField]

theorem series_grouper_merge_witness :
    (((SeriesGrouper.empty Int).addField "cpu" [] 0 "user" 1).addField
        "cpu" [] 0 "idle" 2).metrics
      = [⟨"cpu", [], 0, [("user", 1), ("idle", 2)]⟩] :=
  (series_grouper_merge Int "cpu" [] 0 "user" "idle" 1 2 7 (by decide)).1

/-! ## Output Runner name transforms (spec §4.2, §8)

`models/running_output.go` is not in the snapshot (only its tests), so the
name transform chain is modelled from the spec: "name transforms (prefix,
suffix, full override)", with the testable property "override wins over
prefix/suffix". -/

/-- The name-transform part of an Output Runner's configuration.  The
configuration is a struct: the order in which the three settings are
declared in the configuration file does not exist at this level, so the
result cannot depend on declaration order. -/
structure NameTransformConfig where
  nameOverride : String
  namePrefix : String
  nameSuffix : String
  deriving Repr, DecidableEq

/-- Modelled from the spec: the Output Runner applies "name transforms
(prefix, suffix, full override)" to a metric's name before buffering, with
the override taking precedence over prefix and suffix. -/
def applyNameTransforms (c : NameTransformConfig) (name : String) : String :=
  if c.nameOverride ≠ "" then
    c.nameOverride
  else
    let withPrefix := if c.namePrefix ≠ "" then c.namePrefix ++ name else name
    if c.nameSuffix ≠ "" then withPrefix ++ c.nameSuffix else withPrefix

/-- C6: Name transform precedence.  With a non-empty override configured the
final name is the override, whatever prefix and suffix are configured; with
only a prefix the final name is prefix ++ name; with only a suffix it is
name ++ suffix. -/
theorem name_transform_precedence (c : NameTransformConfig) (name : String) :
    (c.nameOverride ≠ "" → applyNameTransforms c name = c.nameOverride)
    ∧ (c.nameOverride = "" → c.nameSuffix = "" → c.namePrefix ≠ "" →
        applyNameTransforms c name = c.namePrefix ++ name)
    ∧ (c.nameOverride = "" → c.namePrefix = "" → c.nameSuffix ≠ "" →
        applyNameTransforms c name = name ++ c.nameSuffix) := by
  refine ⟨?_, ?_, ?_⟩
  · intro h
    simp [applyNameTransforms, h]
  · intro h1 h2 h3
    simp [applyNameTransforms, h1, h2, h3]
  · intro h1 h2 h3
    simp [applyNameTransforms, h1, h2, h3]

theorem name_transform_precedence_witness :
    applyNameTransforms ⟨"X", "pre_", "_suf"⟩ "m" = "X" :=
  (name_transform_precedence ⟨"X", "pre_", "_suf"⟩ "m").1 (by decide)

/-! ## RunningInput.MakeMetric field handling (models/running_input.go)

`models/running_input.go` and `models/makemetric.go` are not in the
snapshot.  The nil-field behavior is modelled from the repository's own
tests `TestMakeMetricNoFields` and `TestMakeMetricNilFields` in
`src/models/running_output_test.go`: nil-valued fields are dropped, and a
metric left with no fields becomes `nil` (here `none`). -/

/-- A raw field value at the ingestion boundary: Go `interface{}` values,
which may be `nil`. -/
inductive RawField (V : Type) where
  | nil
  | val (v : V)
  deriving Repr, DecidableEq

/-- A metric as handed to `MakeMetric`, with possibly-nil field values. -/
structure RawMetric (V : Type) where
  name : String
  tags : List (String × String)
  fields : List (String × RawField V)
  time : Int
  deriving Repr, DecidableEq

/-- The non-nil fields of a raw field list. -/
def dropNilFields (fs : List (String × RawField V)) : List (String × V) :=
  fs.filterMap (fun p => match p.2 with
    | .nil => none
    | .val v => some (p.1, v))

/-- A metric past the ingestion boundary: every field carries a value. -/
structure InMetric (V : Type) where
  name : String
  tags : List (String × String)
  fields : List (String × V)
  time : Int
  deriving Repr, DecidableEq

/-- Modelled from the spec: `RunningInput.MakeMetric` drops nil-valued
fields and discards the metric (returns `none`) when no fields remain.
Its filtering and tag handling are not modelled here. -/
def makeMetric (m : RawMetric V) : Option (InMetric V) :=
  let fs := dropNilFields m.fields
  if fs.isEmpty then none
  else some ⟨m.name, m.tags, fs, m.time⟩

/-- C9: at-least-one-field invariant at the ingestion boundary.  Nil fields
are dropped; if no non-nil field remains the metric is discarded; hence
every metric `MakeMetric` forwards has at least one field, and all its
fields are the non-nil ones of the input. -/
theorem makemetric_at_least_one_field (V : Type) (m : RawMetric V) :
    (∀ m2, makeMetric m = some m2 →
        m2.fields = dropNilFields m.fields ∧ m2.fields ≠ [])
    ∧ (dropNilFields m.fields = [] → makeMetric m = none) := by
  constructor
  · intro m2 hm
    unfold makeMetric at hm
    by_cases hempty : (dropNilFields m.fields).isEmpty
    · simp [hempty] at hm
    · simp [hempty] at hm
      rw [← hm]
      refine ⟨rfl, ?_⟩
      intro hcon
      rw [List.isEmpty_iff] at hempty
      exact hempty hcon
  · intro hnil
    unfold makeMetric
    simp [hnil]

theorem makemetric_at_least_one_field_witness :
    makeMetric (⟨"RITest", [], [("nil", RawField.nil)], 0⟩ : RawMetric Int)
      = none :=
  (makemetric_at_least_one_field Int ⟨"RITest", [], [("nil", RawField.nil)], 0⟩).2
    (by decide)

/-! ## JSON serializer (src/unnamed/part_017, package json)

This file is in the snapshot, so the embedding follows the Go source:
`createObject` copies tags, skips float64 fields whose value is NaN or
±Inf, keeps all other fields, and sets name and the unit-truncated
timestamp. -/

/-- A Go float64 value as far as the serializer observes it: a finite value
or one of the special values rejected by JSON. -/
inductive GoFloat where
  | finite (q : ℚ)
  | nan
  | posInf
  | negInf
  deriving Repr, DecidableEq

/-- `math.IsNaN`. -/
def GoFloat.isNaN : GoFloat → Bool
  | .nan => true
  | _ => false

/-- `math.IsInf(fv, 0)`: infinite in either direction. -/
def GoFloat.isInf : GoFloat → Bool
  | .posInf => true
  | .negInf => true
  | _ => false

/-- A telegraf field value: int64, uint64, float64, bool or string. -/
inductive FieldVal where
  | vint (i : Int)
  | vuint (n : Nat)
  | vfloat (f : GoFloat)
  | vbool (b : Bool)
  | vstr (s : String)
  deriving Repr, DecidableEq

/-- A metric as consumed by the serializer. -/
structure JMetric where
  name : String
  tags : List (String × String)
  fields : List (String × FieldVal)
  timeUnixNano : Int
  deriving Repr, DecidableEq

/-- The object built by `createObject`: the four entries of the serialized
map. -/
structure JObject where
  tags : List (String × String)
  fields : List (String × FieldVal)
  name : String
  timestamp : Int
  deriving Repr, DecidableEq

/-- The serializer's per-field switch: a float64 field is kept unless
`math.IsNaN(fv) || math.IsInf(fv, 0)`; every other type is kept. -/
def keepField (v : FieldVal) : Bool :=
  match v with
  | .vfloat f => !(f.isNaN || f.isInf)
  | _ => true

/-- Embeds `serializer.createObject` from src/unnamed/part_017: tags copied,
NaN/Inf float fields skipped, name copied, timestamp divided by the
(already unit-truncated) `TimestampUnits`.  `Int.tdiv`, like Go's int64
division, truncates toward zero. -/
def createObject (timestampUnits : Int) (m : JMetric) : JObject :=
  { tags := m.tags
    fields := m.fields.filter (fun p => keepField p.2)
    name := m.name
    timestamp := Int.tdiv m.timeUnixNano timestampUnits }

/-- C7: NaN/Inf filtering at the serialization boundary.  Every float64
field whose value is NaN or ±Inf is omitted from the serialized object;
every other field is preserved; no field appears that was not in the
metric; tags, name and the unit-divided timestamp are preserved.  NaN/Inf
fields are representable in `JMetric` (permitted in memory) and
`createObject` is total, so serialization does not fail on them. -/
theorem json_nan_inf_filtering (u : Int) (m : JMetric) :
    (∀ k f, GoFloat.isNaN f || GoFloat.isInf f →
        (k, FieldVal.vfloat f) ∉ (createObject u m).fields)
    ∧ (∀ kv, kv ∈ m.fields → keepField kv.2 → kv ∈ (createObject u m).fields)
    ∧ (∀ kv, kv ∈ (createObject u m).fields → kv ∈ m.fields)
    ∧ (createObject u m).tags = m.tags
    ∧ (createObject u m).name = m.name
    ∧ (createObject u m).timestamp = Int.tdiv m.timeUnixNano u := by
  refine ⟨?_, ?_, ?_, rfl, rfl, rfl⟩
  · intro k f hbad hmem
    rw [createObject] at hmem
    simp only [List.mem_filter] at hmem
    have hk := hmem.2
    cases f <;> simp_all [keepField, GoFloat.isNaN, GoFloat.isInf]
  · intro kv hmem hkeep
    rw [createObject]
    simp only [List.mem_filter]
    exact ⟨hmem, hkeep⟩
  · intro kv hmem
    rw [createObject] at hmem
    simp only [List.mem_filter] at hmem
    exact hmem.1

theorem json_nan_inf_filtering_witness :
    (("bad", FieldVal.vfloat GoFloat.nan) ∉
        (createObject 1 ⟨"m", [("t", "v")],
          [("ok", FieldVal.vfloat (GoFloat.finite 1)),
           ("bad", FieldVal.vfloat GoFloat.nan),
           ("inf", FieldVal.vfloat GoFloat.posInf)], 12⟩).fields)
    ∧ (("ok", FieldVal.vfloat (GoFloat.finite 1)) ∈
        (createObject 1 ⟨"m", [("t", "v")],
          [("ok", FieldVal.vfloat (GoFloat.finite 1)),
           ("bad", FieldVal.vfloat GoFloat.nan),
           ("inf", FieldVal.vfloat GoFloat.posInf)], 12⟩).fields) := by
  constructor
  · exact (json_nan_inf_filtering 1 ⟨"m", [("t", "v")],
      [("ok", FieldVal.vfloat (GoFloat.finite 1)),
       ("bad", FieldVal.vfloat GoFloat.nan),
       ("inf", FieldVal.vfloat GoFloat.posInf)], 12⟩).1 "bad" GoFloat.nan
      (by decide)
  · exact ((json_nan_inf_filtering 1 ⟨"m", [("t", "v")],
      [("ok", FieldVal.vfloat (GoFloat.finite 1)),
       ("bad", FieldVal.vfloat GoFloat.nan),
       ("inf", FieldVal.vfloat GoFloat.posInf)], 12⟩).2.1
      ("ok", FieldVal.vfloat (GoFloat.finite 1)) (by decide) (by decide))

/-! ## Timestamp unit truncation (src/unnamed/part_017, truncateDuration)

`truncateDuration` operates on Go `time.Duration`, an `int64`; Go signed
integer arithmetic wraps around, which the embedding makes explicit.  The
Go loop `for { if d*10 > units { return d }; d = d * 10 }` has no bound, so
the embedding carries fuel; `some` results are loop returns, and a `none`
result means the fuel ran out.  Once `d` reaches 0 (which wrapping
multiplication by 10 does reach, since `10^64 ≡ 0 mod 2^64`) the loop can
never return for positive `units`, so fuel 100 is past every reachable
return point. -/

/-- Signed 64-bit wraparound: the representative of `x` in
`[-2^63, 2^63)`, as Go int64 arithmetic produces. -/
def wrap64 (x : Int) : Int :=
  (x + 2 ^ 63) % 2 ^ 64 - 2 ^ 63

/-- Embeds the loop of `truncateDuration`: `d` starts at 1 nanosecond and
is multiplied by ten (with int64 wraparound) until `d*10 > units`. -/
def truncLoop : Nat → Int → Int → Option Int
  | 0, _, _ => none
  | fuel + 1, d, units =>
      if wrap64 (d * 10) > units then some d
      else truncLoop fuel (wrap64 (d * 10)) units

/-- Embeds `truncateDuration` from src/unnamed/part_017: non-positive units
default to one second (`10^9` nanoseconds); otherwise the power-of-ten
search loop runs. -/
def truncateDuration (units : Int) : Option Int :=
  if units ≤ 0 then some (10 ^ 9) else truncLoop 100 1 units

theorem wrap64_eq_self (x : Int) (hlo : -(2 ^ 63) ≤ x) (hhi : x < 2 ^ 63) :
    wrap64 x = x := by
  unfold wrap64
  have h1 : 0 ≤ x + 2 ^ 63 := by omega
  have h2 : x + 2 ^ 63 < 2 ^ 64 := by omega
  rw [Int.emod_eq_of_lt h1 h2]
  omega

/-- Counterexample to C10 as stated: at `units = 10^18` the multiplication
`d*10` overflows int64 once `d = 10^18`, so the loop skips past the unique
power of ten `10^18 ≤ units < 10^19` and returns a negative duration. -/
theorem truncateDuration_counterexample :
    (10 : Int) ^ 18 ≤ 10 ^ 18
    ∧ (10 : Int) ^ 18 < 10 * 10 ^ 18
    ∧ truncateDuration (10 ^ 18) ≠ some ((10 : Int) ^ 18)
    ∧ truncateDuration (10 ^ 18) = some (-8446744073709551616) := by
  refine ⟨by norm_num, by norm_num, ?_, ?_⟩
  · decide
  · decide

theorem truncLoop_pow10 (fuel : Nat) :
    ∀ (j : Nat) (u : Int), (10 : Int) ^ j ≤ u → u < 10 ^ 18 →
    u < 10 ^ j * 10 ^ fuel →
    ∃ k : Nat, truncLoop fuel ((10 : Int) ^ j) u = some ((10 : Int) ^ k)
      ∧ (10 : Int) ^ k ≤ u ∧ u < (10 : Int) ^ (k + 1) := by
  induction fuel with
  | zero =>
      intro j u hd _ hfuel
      exfalso
      simp at hfuel
      omega
  | succ n ih =>
      intro j u hd hu hfuel
      have hj : j ≤ 17 := by
        by_contra hj17
        have h18 : (10 : Int) ^ 18 ≤ 10 ^ j := by
          apply pow_le_pow_right₀ (by norm_num)
          omega
        omega
      have hd10 : (10 : Int) ^ j * 10 = 10 ^ (j + 1) := by
        rw [pow_succ]
      have hbound : (10 : Int) ^ (j + 1) ≤ 10 ^ 18 := by
        apply pow_le_pow_right₀ (by norm_num)
        omega
      have h18lt : (10 : Int) ^ 18 < 2 ^ 63 := by norm_num
      have hwrap : wrap64 ((10 : Int) ^ j * 10) = 10 ^ (j + 1) := by
        rw [hd10]
        apply wrap64_eq_self
        · have : (0 : Int) < 10 ^ (j + 1) := by positivity
          omega
        · omega
      rw [truncLoop, hwrap]
      by_cases hc : (10 : Int) ^ (j + 1) > u
      · rw [if_pos hc]
        exact ⟨j, rfl, hd, hc⟩
      · rw [if_neg hc]
        apply ih (j + 1) u (by omega) hu
        have : (10 : Int) ^ (j + 1) * 10 ^ n = 10 ^ j * 10 ^ (n + 1) := by
          rw [pow_succ, pow_succ]
          ring
        omega

/-- C10 (amended): `truncateDuration` returns one second for `u ≤ 0`, and
for `0 < u < 10^18` terminates with the unique power-of-ten duration `d`
with `d ≤ u < 10·d` (so in particular `d ≤ u`).  For `u ≥ 10^18` the int64
multiplication overflows and the returned value is not that power of ten
(see the counterexample). -/
theorem truncateDuration_spec (u : Int) :
    (u ≤ 0 → truncateDuration u = some ((10 : Int) ^ 9))
    ∧ (0 < u → u < 10 ^ 18 →
        ∃ k : Nat, truncateDuration u = some ((10 : Int) ^ k)
          ∧ (10 : Int) ^ k ≤ u ∧ u < (10 : Int) ^ (k + 1)
          ∧ ∀ j : Nat, (10 : Int) ^ j ≤ u → u < (10 : Int) ^ (j + 1) → j = k) := by
  constructor
  · intro h
    rw [truncateDuration, if_pos h]
  · intro h0 h18
    have hnot : ¬ u ≤ 0 := by omega
    rw [truncateDuration, if_neg hnot]
    have h1 : ((10 : Int) ^ 0) ≤ u := by simpa using h0
    have hfuel : u < 10 ^ 0 * 10 ^ 100 := by
      have : (10 : Int) ^ 18 ≤ 10 ^ 100 := by
        apply pow_le_pow_right₀ (by norm_num)
        omega
      simp
      omega
    obtain ⟨k, hres, hlo, hhi⟩ := truncLoop_pow10 100 0 u h1 h18 hfuel
    refine ⟨k, by simpa using hres, hlo, hhi, ?_⟩
    intro j hjlo hjhi
    by_contra hne
    rcases Nat.lt_or_ge j k with hjk | hjk
    · have : (10 : Int) ^ (j + 1) ≤ 10 ^ k := by
        apply pow_le_pow_right₀ (by norm_num)
        omega
      omega
    · have hkj : k < j := by omega
      have : (10 : Int) ^ (k + 1) ≤ 10 ^ j := by
        apply pow_le_pow_right₀ (by norm_num)
        omega
      omega

theorem truncateDuration_spec_witness :
    ∃ k : Nat, truncateDuration 5000 = some ((10 : Int) ^ k)
      ∧ (10 : Int) ^ k ≤ 5000 ∧ (5000 : Int) < (10 : Int) ^ (k + 1)
      ∧ ∀ j : Nat, (10 : Int) ^ j ≤ 5000 → (5000 : Int) < (10 : Int) ^ (j + 1) → j = k :=
  (truncateDuration_spec 5000).2 (by norm_num) (by norm_num)

/-! ## Configuration loading (src/config/config.go)

`Config.addOutput` and `Config.addInput` are in the snapshot.  The embedding
keeps their control flow: the active plugin-filter check first (a filtered
name is skipped silently), then — for inputs — the legacy rename of `io` to
`diskio`, then the registry lookup whose failure is the fatal "Undefined but
requested" error, then the append to the running set.  The construction
steps in between (serializer/parser building, TOML unmarshalling), which
concern the plugin's own settings rather than its name, are not modelled. -/

/-- The parts of `Config` that the add-plugin paths read and write: the
active name filters and the running sets built so far. -/
structure Config where
  outputFilters : List String
  inputFilters : List String
  outputs : List String
  inputs : List String
  deriving Repr, DecidableEq

/-- Embeds `sliceContains` from src/config/config.go. -/
def sliceContains (name : String) (list : List String) : Bool :=
  list.any (fun s => s == name)

/-- Embeds `Config.addOutput` (src/config/config.go): filtered-out names
are skipped without error; an unregistered name is the fatal
"Undefined but requested output" error; otherwise the output joins the
running set. -/
def addOutput (registry : List String) (c : Config) (name : String) :
    Except String Config :=
  if c.outputFilters.length > 0 && !sliceContains name c.outputFilters then
    .ok c
  else if registry.contains name then
    .ok { c with outputs := c.outputs ++ [name] }
  else
    .error ("Undefined but requested output: " ++ name)

/-- Embeds `Config.addInput` (src/config/config.go): filter check on the
configured name, then the legacy rename of input `io` to `diskio`, then the
registry lookup and append. -/
def addInput (registry : List String) (c : Config) (name : String) :
    Except String Config :=
  if c.inputFilters.length > 0 && !sliceContains name c.inputFilters then
    .ok c
  else
    let name2 := if name == "io" then "diskio" else name
    if registry.contains name2 then
      .ok { c with inputs := c.inputs ++ [name2] }
    else
      .error ("Undefined but requested input: " ++ name2)

/-- Counterexample to C8 as stated: the configured input name `io` is not
in the registry, yet `addInput` raises no error — the legacy alias resolves
it to `diskio` before the lookup. -/
theorem config_unknown_name_counterexample :
    ("io" ∈ (["diskio"] : List String) → False)
    ∧ addInput ["diskio"] ⟨[], [], [], []⟩ "io"
        = .ok ⟨[], [], [], ["diskio"]⟩ := by
  constructor
  · decide
  · rfl

/-- C8 (amended): referencing an output or input plugin name absent from
the corresponding registry makes configuration loading return the
"Undefined but requested" error, so the plugin never joins the running set
— except the legacy input alias `io`, which is resolved to `diskio` before
the lookup; a name excluded by the active plugin filters is skipped
silently, leaving the configuration unchanged and raising no error. -/
theorem config_fatal_unknown_plugin (registry : List String) (c : Config)
    (name : String) :
    ((c.outputFilters = [] ∨ name ∈ c.outputFilters) → name ∉ registry →
        addOutput registry c name
          = .error ("Undefined but requested output: " ++ name))
    ∧ ((c.inputFilters = [] ∨ name ∈ c.inputFilters) → name ≠ "io" →
        name ∉ registry →
        addInput registry c name
          = .error ("Undefined but requested input: " ++ name))
    ∧ (c.outputFilters ≠ [] → name ∉ c.outputFilters →
        addOutput registry c name = .ok c)
    ∧ (c.inputFilters ≠ [] → name ∉ c.inputFilters →
        addInput registry c name = .ok c) := by
  refine ⟨?_, ?_, ?_, ?_⟩
  · intro hfilter hreg
    have hcond : (c.outputFilters.length > 0
        && !sliceContains name c.outputFilters) = false := by
      rcases hfilter with hf | hf
      · simp [hf]
      · have hsc : sliceContains name c.outputFilters = true := by
          simp [sliceContains]
          exact hf
        simp [hsc]
    have hreg2 : registry.contains name = false := by
      simpa using hreg
    simp [addOutput, hcond, hreg, hreg2]
  · intro hfilter hio hreg
    have hcond : (c.inputFilters.length > 0
        && !sliceContains name c.inputFilters) = false := by
      rcases hfilter with hf | hf
      · simp [hf]
      · have hsc : sliceContains name c.inputFilters = true := by
          simp [sliceContains]
          exact hf
        simp [hsc]
    have hio2 : (name == "io") = false := by
      simp [hio]
    have hreg2 : registry.contains name = false := by
      simpa using hreg
    simp [addInput, hcond, hio2, hreg, hreg2]
  · intro hne hnm
    have hlen : 0 < c.outputFilters.length := List.length_pos.mpr hne
    have hsc : sliceContains name c.outputFilters = false := by
      simp [sliceContains]
      intro x hx hx2
      exact hnm (hx2 ▸ hx)
    simp [addOutput, hlen, hsc]
  · intro hne hnm
    have hlen : 0 < c.inputFilters.length := List.length_pos.mpr hne
    have hsc : sliceContains name c.inputFilters = false := by
      simp [sliceContains]
      intro x hx hx2
      exact hnm (hx2 ▸ hx)
    simp [addInput, hlen, hsc]

theorem config_fatal_unknown_plugin_witness :
    addOutput ["file"] ⟨[], [], [], []⟩ "kafka"
      = .error ("Undefined but requested output: " ++ "kafka") :=
  (config_fatal_unknown_plugin ["file"] ⟨[], [], [], []⟩ "kafka").1
    (Or.inl rfl) (by decide)

end Telegraf
